import Mathlib

-- Verification of the caliper metrics library against its specification.
-- Real numbers of the source (Python floats) are embedded as rationals;
-- all definitions below are transcribed from the named source functions.

-- ## Errors raised by snapshot operations (snapshot.py)
-- ValueError for an out-of-range quantile; IndexError for an out-of-range
-- sequence subscript.

inductive SnapErr where
  | invalidQuantile
  | indexError
deriving DecidableEq

-- ## Snapshot (snapshot.py, class Snapshot)
-- A Snapshot is a tuple holding the reservoir values sorted ascending
-- (Snapshot.__new__, line 17: tuple.__new__(cls, sorted(...))).

structure Snapshot where
  vals : List ℚ
deriving DecidableEq

def Snapshot.ofList (l : List ℚ) : Snapshot :=
  ⟨l.insertionSort (· ≤ ·)⟩

-- Snapshot.get_value (snapshot.py lines 19-43).  Python int(pos) truncates
-- toward zero; for quantile in [0, 1] the position is nonnegative, so the
-- truncation is the floor.  self[-1] is the last element, i.e. index n - 1.
def Snapshot.getValue (s : Snapshot) (q : ℚ) : Except SnapErr ℚ :=
  if ¬ (0 ≤ q ∧ q ≤ 1) then .error .invalidQuantile
  else if s.vals.length = 0 then .ok 0
  else
    let n : ℕ := s.vals.length
    let pos : ℚ := q * ((n : ℚ) + 1)
    let index : ℤ := ⌊pos⌋
    if index = 0 then .ok (s.vals.getD 0 0)
    else if (n : ℤ) ≤ index then .ok (s.vals.getD (n - 1) 0)
    else
      let lower := s.vals.getD (index.toNat - 1) 0
      let upper := s.vals.getD index.toNat 0
      .ok (lower + (pos - (index : ℚ)) * (upper - lower))

def Snapshot.mean (s : Snapshot) : ℚ :=
  if s.vals.length = 0 then 0 else s.vals.sum / (s.vals.length : ℚ)

-- The square of Snapshot.stddev (snapshot.py lines 51-57); the source takes
-- math.sqrt of this quantity, which determines stddev from it.
def Snapshot.stddevSq (s : Snapshot) : ℚ :=
  if s.vals.length ≤ 1 then 0
  else (s.vals.map (fun x => (x - s.mean) ^ 2)).sum / ((s.vals.length : ℚ) - 1)

-- ## WeightedSnapshot (snapshot.py, class WeightedSnapshot)
-- Python sorts the (value, weight) pairs by tuple comparison, i.e.
-- lexicographically.

def pairLe (a b : ℚ × ℚ) : Prop :=
  a.1 < b.1 ∨ (a.1 = b.1 ∧ a.2 ≤ b.2)

instance : DecidableRel pairLe := fun a b => by
  unfold pairLe; infer_instance

structure WeightedSnapshot where
  vals : List ℚ
  normweights : List ℚ
  quantiles : List ℚ
deriving DecidableEq

-- WeightedSnapshot.__new__ (snapshot.py lines 62-77): pairs sorted, values
-- and weights split off, weights normalized by their sum, and the exclusive
-- prefix sums of the normalized weights stored (sum(normweights[:i])).
-- On an empty iterable both sequences are empty and no division occurs.
def WeightedSnapshot.ofList (l : List (ℚ × ℚ)) : WeightedSnapshot :=
  let sortedPairs := l.insertionSort pairLe
  let values := sortedPairs.map Prod.fst
  let weights := sortedPairs.map Prod.snd
  let sumweight : ℚ := weights.sum
  let normweights := weights.map (fun w => w / sumweight)
  let quantiles := (List.range values.length).map (fun i => (normweights.take i).sum)
  ⟨values, normweights, quantiles⟩

-- The for/else loop of WeightedSnapshot.get_value (snapshot.py lines 83-87):
-- index of the first accumulated cutoff exceeding the quantile, or the
-- length of the list when none does.
def findPos : List ℚ → ℚ → ℕ
  | [], _ => 0
  | acc :: rest, q => if acc > q then 0 else findPos rest q + 1

-- WeightedSnapshot.get_value (snapshot.py lines 79-94).  self[0] on an empty
-- tuple raises IndexError.
def WeightedSnapshot.getValue (s : WeightedSnapshot) (q : ℚ) : Except SnapErr ℚ :=
  if ¬ (0 ≤ q ∧ q ≤ 1) then .error .invalidQuantile
  else
    let pos := findPos s.quantiles q
    if pos ≤ 1 then
      match s.vals.get? 0 with
      | some v => .ok v
      | none => .error .indexError
    else
      match s.vals.get? (pos - 1) with
      | some v => .ok v
      | none => .error .indexError

def WeightedSnapshot.mean (s : WeightedSnapshot) : ℚ :=
  if s.vals.length = 0 then 0
  else ((s.vals.zip s.normweights).map (fun p => p.1 * p.2)).sum

-- The square of WeightedSnapshot.stddev (snapshot.py lines 102-107).
def WeightedSnapshot.stddevSq (s : WeightedSnapshot) : ℚ :=
  if s.vals.length ≤ 1 then 0
  else ((s.vals.zip s.normweights).map (fun p => p.2 * (p.1 - s.mean) ^ 2)).sum

-- ## Registry (registry.py)
-- A dotted name is a Python string; labels are its dot-separated pieces.
-- Python dicts keep insertion order and are modelled as association lists:
-- updating an existing key keeps its position, a new key is appended.

abbrev Label := List Char

-- Splitting a name at the dot character: str.split never returns an empty list;
-- splitting the empty string yields a single empty piece.
def splitLabels : List Char → List Label
  | [] => [[]]
  | c :: rest =>
    let r := splitLabels rest
    if c = '.' then [] :: r
    else
      match r with
      | [] => [[c]]
      | l :: ls => (c :: l) :: ls

-- RE_LABEL = ^[a-z_][a-z0-9_]*$ with re.I (registry.py line 5).
def isLabelStart (c : Char) : Bool := c.isAlpha || c = '_'

def isLabelChar (c : Char) : Bool := c.isAlpha || c.isDigit || c = '_'

def isLabel : Label → Bool
  | [] => false
  | c :: rest => isLabelStart c && rest.all isLabelChar

inductive RegErr where
  | invalidName (name : String)
  | invalidLabel (label : Label)
  | duplicateName (name : String)
deriving DecidableEq

-- The registry tree: dict values are either nested dicts or metrics
-- (metrics identified by a numeric id).
inductive RTree where
  | metric (id : ℕ)
  | node (children : List (Label × RTree))

def assocGet {ν : Type} (data : List (Label × ν)) (k : Label) : Option ν :=
  match data with
  | [] => none
  | (k2, v) :: rest => if k2 = k then some v else assocGet rest k

def assocSet {ν : Type} (data : List (Label × ν)) (k : Label) (v : ν) :
    List (Label × ν) :=
  match data with
  | [] => [(k, v)]
  | (k2, v2) :: rest =>
    if k2 = k then (k, v) :: rest else (k2, v2) :: assocSet rest k v

-- Registry._split_name (registry.py lines 63-73).  The "len(labels) == 0"
-- guard is transcribed although str.split can never produce an empty list.
def Registry.splitName (name : String) : Except RegErr (List Label) :=
  let labels := splitLabels name.data
  if labels.length = 0 then .error (.invalidName name)
  else
    match labels.find? (fun l => !(isLabel l)) with
    | some l => .error (.invalidLabel l)
    | none => .ok labels

-- The while-loop of Registry.register (registry.py lines 30-47), by
-- recursion on the remaining labels.  When the loop pops the last label and
-- finds a dict under it, the loop body hits "continue" and the loop then
-- exits: nothing is stored and nothing is raised.
def Registry.registerAux (name : String) (m : ℕ) :
    List Label → List (Label × RTree) → Except RegErr (List (Label × RTree))
  | [], data => .ok data
  | label :: rest, data =>
    match assocGet data label with
    | some (RTree.node children) =>
      match Registry.registerAux name m rest children with
      | .ok children2 => .ok (assocSet data label (RTree.node children2))
      | .error e => .error e
    | some (RTree.metric _) => .error (.duplicateName name)
    | none =>
      if rest.length > 0 then
        match Registry.registerAux name m rest [] with
        | .ok children2 => .ok (assocSet data label (RTree.node children2))
        | .error e => .error e
      else .ok (assocSet data label (RTree.metric m))

def Registry.register (data : List (Label × RTree)) (name : String) (m : ℕ) :
    Except RegErr (List (Label × RTree)) :=
  match Registry.splitName name with
  | .ok labels => Registry.registerAux name m labels data
  | .error e => .error e

-- Registry.query (registry.py lines 49-61).  When an interior label holds a
-- metric the source would next evaluate "label in <metric>" and fail with a
-- TypeError; that path is unreachable from the claims and is mapped to none.
def Registry.queryAux : List Label → List (Label × RTree) → Option RTree
  | [], _ => none
  | label :: rest, data =>
    match assocGet data label with
    | some t =>
      if rest.isEmpty then some t
      else
        match t with
        | RTree.node children => Registry.queryAux rest children
        | RTree.metric _ => none
    | none => none

def Registry.query (data : List (Label × RTree)) (name : String) :
    Except RegErr (Option RTree) :=
  match Registry.splitName name with
  | .ok labels => .ok (Registry.queryAux labels data)
  | .error e => .error e

-- ## Facade (__init__.py)
-- The module-level _registry maps key tuples to metrics.  Metrics are
-- modelled by their type tag and a creation index uid.

inductive MetricType where
  | counter
  | gauge
  | histogram
  | meter
  | timer
deriving DecidableEq

def MetricType.clsName : MetricType → List Char
  | .counter => "Counter".data
  | .gauge => "Gauge".data
  | .histogram => "Histogram".data
  | .meter => "Meter".data
  | .timer => "Timer".data

structure FMetric where
  ty : MetricType
  uid : ℕ
deriving DecidableEq

structure FacadeState where
  registry : List (List Label × FMetric)
  nextUid : ℕ
deriving DecidableEq

inductive FacadeErr where
  | valueError (keystr : List Char)
  | typeError (keystr : List Char)
deriving DecidableEq

def fAssocGet (data : List (List Label × FMetric)) (k : List Label) : Option FMetric :=
  match data with
  | [] => none
  | (k2, v) :: rest => if k2 = k then some v else fAssocGet rest k

-- The first label of the _split_registry_key regex (__init__.py line 60)
-- does not admit a leading underscore.
def isFacadeLabel : Label → Bool
  | [] => false
  | c :: rest => c.isAlpha && rest.all isLabelChar

-- _split_registry_key (__init__.py lines 59-64): the regex matches exactly
-- when every dot-separated piece is a facade label; on failure a ValueError
-- is raised, on success the split key is returned.
def splitRegistryKey (keystr : List Char) : Except FacadeErr (List Label) :=
  let parts := splitLabels keystr
  if parts.all isFacadeLabel then .ok parts
  else .error (.valueError keystr)

-- get_or_create_metric (__init__.py lines 36-49) with an explicit name (the
-- uuid-generated default is external randomness and is not modelled).  The
-- key joins the name with the class name of the requested metric type.
-- "if metric:" is the not-None test: metric instances are truthy.
def get_or_create_metric (st : FacadeState) (cls : MetricType) (name : List Char) :
    Except FacadeErr (FMetric × FacadeState) :=
  let keystr := name ++ '.' :: cls.clsName
  match splitRegistryKey keystr with
  | .error e => .error e
  | .ok key =>
    match fAssocGet st.registry key with
    | some m =>
      if ¬ (m.ty = cls) then .error (.typeError keystr)
      else .ok (m, st)
    | none =>
      let m : FMetric := ⟨cls, st.nextUid⟩
      .ok (m, ⟨st.registry ++ [(key, m)], st.nextUid + 1⟩)

-- ## Reservoirs (reservoir.py)

-- UniformReservoir (reservoir.py lines 70-88).  The randint draw is an
-- input r; each update also reports the list of randint calls it performed,
-- as inclusive (lo, hi) bounds, so that the randomness contract is visible.
structure RandCall where
  lo : ℤ
  hi : ℤ
deriving DecidableEq

structure UniformReservoir where
  res : List ℚ
  count : ℕ
  size : ℕ
deriving DecidableEq

def UniformReservoir.update (st : UniformReservoir) (value : ℚ) (r : ℕ) :
    UniformReservoir × List RandCall :=
  if st.count < st.size then
    ({ st with res := st.res ++ [value], count := st.count + 1 }, [])
  else
    let call : RandCall := ⟨0, (st.count : ℤ) - 1⟩
    let res2 := if r < st.size then st.res.set r value else st.res
    ({ st with res := res2, count := st.count + 1 }, [call])

-- ExponentiallyDecayingReservoir (reservoir.py lines 91-130).  _res is a
-- dict keyed by priority, holding (value, weight) samples; entries are
-- flattened to (priority, value, weight) triples.  The weight and priority
-- computed by update from the clock and the random draw (lines 108-120) are
-- inputs here; the claims concern the storage logic of lines 122-130.
structure ExponentiallyDecayingReservoir where
  res : List (ℚ × ℚ × ℚ)
  count : ℕ
  size : ℕ
deriving DecidableEq

def dictInsert (res : List (ℚ × ℚ × ℚ)) (k v w : ℚ) : List (ℚ × ℚ × ℚ) :=
  if res.any (fun e => decide (e.1 = k)) then
    res.map (fun e => if e.1 = k then (k, v, w) else e)
  else res ++ [(k, v, w)]

def dictRemove (res : List (ℚ × ℚ × ℚ)) (k : ℚ) : List (ℚ × ℚ × ℚ) :=
  res.filter (fun e => !(decide (e.1 = k)))

-- update, full-reservoir logic (lines 122-130):  sorted(keys)[0] raises an
-- IndexError on an empty dict, mapped to none; otherwise the new sample is
-- stored (and the minimum evicted) only if its priority beats the minimum
-- and is not already a key.
def ExponentiallyDecayingReservoir.update (st : ExponentiallyDecayingReservoir)
    (value weight priority : ℚ) : Option ExponentiallyDecayingReservoir :=
  if st.count < st.size then
    some { st with res := dictInsert st.res priority value weight,
                   count := st.count + 1 }
  else
    match ((st.res.map (fun e => e.1)).insertionSort (· ≤ ·)) with
    | [] => none
    | first :: _ =>
      let res2 :=
        if first < priority ∧ st.res.any (fun e => decide (e.1 = priority)) = false then
          dictRemove (dictInsert st.res priority value weight) first
        else st.res
      some { st with res := res2, count := st.count + 1 }

-- ## EWMA (metric.py lines 179-228)

structure EWMA where
  alpha : ℚ
  interval : ℚ
  uncounted : ℚ
  initialized : Bool
  rate : ℚ
deriving DecidableEq

-- EWMA.__init__ (metric.py lines 203-208).
def EWMA.init (alpha interval : ℚ) : EWMA :=
  ⟨alpha, interval, 0, false, 0⟩

-- EWMA.update (metric.py lines 215-216).
def EWMA.update (e : EWMA) (n : ℚ) : EWMA :=
  { e with uncounted := e.uncounted + n }

-- EWMA.tick (metric.py lines 218-228).
def EWMA.tick (e : EWMA) : EWMA :=
  let count := e.uncounted
  let instantRate := count / e.interval
  if e.initialized then
    { e with uncounted := 0, rate := e.rate + e.alpha * (instantRate - e.rate) }
  else
    { e with uncounted := 0, rate := instantRate, initialized := true }

-- ## Snapshot independence (reservoir.py lines 29-34, 46-48; snapshot.py 16-17)
-- A world holding the plain Reservoir's mutable list together with a
-- snapshot a consumer took earlier.  Reservoir.update appends to the list;
-- BaseReservoir.snapshot builds a Snapshot, which copies the values into a
-- fresh sorted tuple and keeps no reference to the list.

structure RWorld where
  resStore : List ℚ
  count : ℕ
  saved : Snapshot
deriving DecidableEq

-- Reservoir.update (reservoir.py lines 46-48).
def RWorld.updateRes (w : RWorld) (v : ℚ) : RWorld :=
  { w with resStore := w.resStore ++ [v], count := w.count + 1 }

-- snapshot() handed to a consumer (reservoir.py lines 29-34).
def RWorld.takeSnapshot (w : RWorld) : RWorld :=
  { w with saved := Snapshot.ofList w.resStore }

-- A dotted path whose labels all resolve to interior nodes of the tree.
def pathOfNodes : List Label → List (Label × RTree) → Prop
  | [], _ => True
  | label :: rest, data =>
    ∃ children, assocGet data label = some (RTree.node children) ∧
      pathOfNodes rest children

-- ## Theorems

theorem findPos_le_length (qs : List ℚ) (q : ℚ) : findPos qs q ≤ qs.length := by
  induction qs with
  | nil => simp [findPos]
  | cons a rest ih =>
    by_cases h : a > q
    · simp [findPos, h]
    · simpa [findPos, h] using ih

theorem findPos_early (qs : List ℚ) (q : ℚ) :
    ∀ i, i < findPos qs q → ∀ x, qs.get? i = some x → x ≤ q := by
  induction qs with
  | nil => intro i hi; simp [findPos] at hi
  | cons a rest ih =>
    intro i hi x hx
    by_cases h : a > q
    · simp [findPos, h] at hi
    · rw [findPos, if_neg h] at hi
      cases i with
      | zero =>
        simp only [List.get?_cons_zero, Option.some_inj] at hx
        exact hx ▸ not_lt.mp h
      | succ j => exact ih j (by omega) x (by simpa using hx)

theorem findPos_hit (qs : List ℚ) (q : ℚ) :
    findPos qs q < qs.length → ∀ x, qs.get? (findPos qs q) = some x → q < x := by
  induction qs with
  | nil => intro h; simp [findPos] at h
  | cons a rest ih =>
    intro hlen x hx
    by_cases h : a > q
    · rw [findPos, if_pos h] at hx
      simp only [List.get?_cons_zero, Option.some_inj] at hx
      exact hx ▸ h
    · rw [findPos, if_neg h] at hlen hx
      exact ih (by simpa using hlen) x (by simpa using hx)

/-- Claim C10: for the WeightedSnapshot built from an empty iterable,
get_value on any quantile in [0, 1] validates the quantile and then indexes
position 0 of the empty value tuple, failing with an IndexError, whereas the
unweighted Snapshot returns 0 when empty. -/
theorem c10_empty_weighted_index_fault :
    ∀ q : ℚ, 0 ≤ q → q ≤ 1 →
      (WeightedSnapshot.ofList []).getValue q = .error .indexError ∧
      (Snapshot.ofList []).getValue q = .ok 0 := by
  intro q h0 h1
  constructor
  · simp [WeightedSnapshot.ofList, WeightedSnapshot.getValue, findPos,
      List.insertionSort, h0, h1]
  · simp [Snapshot.ofList, Snapshot.getValue, List.insertionSort, h0, h1]

/-- Witness for C10 at the quantile 0. -/
theorem c10_witness :
    (0 : ℚ) ≤ 0 ∧ (0 : ℚ) ≤ 1 ∧
      ((WeightedSnapshot.ofList []).getValue 0 = .error .indexError ∧
        (Snapshot.ofList []).getValue 0 = .ok 0) :=
  ⟨le_refl 0, by decide, c10_empty_weighted_index_fault 0 (le_refl 0) (by decide)⟩

/-- Claim C7: tick() reads uncounted, resets it to 0, computes the instant
rate uncounted / interval, and either adopts it outright on the first tick
(marking the EWMA initialized) or blends it as rate + alpha * (instant - rate)
afterwards; with alpha = 1/2 and interval = 5 the sequence update 3, tick,
update 2, tick gives rate 1/2. -/
theorem c7_ewma_tick :
    (∀ e : EWMA,
      (EWMA.tick e).uncounted = 0 ∧
      (EWMA.tick e).initialized = true ∧
      (EWMA.tick e).rate =
        (if e.initialized then e.rate + e.alpha * (e.uncounted / e.interval - e.rate)
         else e.uncounted / e.interval) ∧
      (EWMA.tick e).alpha = e.alpha ∧
      (EWMA.tick e).interval = e.interval) ∧
    (EWMA.tick (EWMA.update (EWMA.tick (EWMA.update (EWMA.init (1/2) 5) 3)) 2)).rate
      = 1/2 := by
  constructor
  · intro e
    by_cases h : e.initialized = true
    · simp [EWMA.tick, h]
    · simp [EWMA.tick, h]
  · norm_num [EWMA.init, EWMA.update, EWMA.tick]

theorem foldl_updateRes_saved :
    ∀ (us : List ℚ) (w : RWorld), (us.foldl RWorld.updateRes w).saved = w.saved := by
  intro us
  induction us with
  | nil => intro w; rfl
  | cons u rest ih => intro w; simpa [RWorld.updateRes] using ih _

/-- Claim C9: a snapshot taken from the plain Reservoir is independent of it:
after any sequence of subsequent updates of the reservoir, the held snapshot,
its contents, its get_value results, its mean and its (squared) standard
deviation are those it had at creation time. -/
theorem c9_snapshot_independent :
    ∀ (w : RWorld) (us : List ℚ) (q : ℚ),
      (us.foldl RWorld.updateRes (RWorld.takeSnapshot w)).saved
          = Snapshot.ofList w.resStore ∧
      (us.foldl RWorld.updateRes (RWorld.takeSnapshot w)).saved.vals
          = (Snapshot.ofList w.resStore).vals ∧
      (us.foldl RWorld.updateRes (RWorld.takeSnapshot w)).saved.getValue q
          = (Snapshot.ofList w.resStore).getValue q ∧
      (us.foldl RWorld.updateRes (RWorld.takeSnapshot w)).saved.mean
          = (Snapshot.ofList w.resStore).mean ∧
      (us.foldl RWorld.updateRes (RWorld.takeSnapshot w)).saved.stddevSq
          = (Snapshot.ofList w.resStore).stddevSq := by
  intro w us q
  have h : (us.foldl RWorld.updateRes (RWorld.takeSnapshot w)).saved
      = Snapshot.ofList w.resStore := foldl_updateRes_saved us (RWorld.takeSnapshot w)
  exact ⟨h, by rw [h], by rw [h], by rw [h], by rw [h]⟩

/-- Claim C6: with the uniform reservoir full (count at least its size), an
update makes exactly one randint call, with the inclusive bounds
(0, count - 1) taken before count is incremented and made even when the draw
is discarded; the drawn index replaces position r exactly when r < size, and
count is incremented. -/
theorem c6_uniform_update_full :
    ∀ (st : UniformReservoir) (v : ℚ) (r : ℕ),
      st.size ≤ st.count →
      (UniformReservoir.update st v r).2 = [⟨0, (st.count : ℤ) - 1⟩] ∧
      (UniformReservoir.update st v r).1.res
          = (if r < st.size then st.res.set r v else st.res) ∧
      (UniformReservoir.update st v r).1.count = st.count + 1 ∧
      (UniformReservoir.update st v r).1.size = st.size ∧
      (UniformReservoir.update st v r).1.res.length = st.res.length := by
  intro st v r h
  have hnot : ¬ st.count < st.size := not_lt.mpr h
  refine ⟨by simp [UniformReservoir.update, hnot], by simp [UniformReservoir.update, hnot],
    by simp [UniformReservoir.update, hnot], by simp [UniformReservoir.update, hnot], ?_⟩
  by_cases hr : r < st.size
  · simp [UniformReservoir.update, hnot, hr]
  · simp [UniformReservoir.update, hnot, hr]

/-- Witness for C6 on a full reservoir of size 3 with draw r = 1. -/
theorem c6_witness :
    (3 : ℕ) ≤ 3 ∧
    (UniformReservoir.update ⟨[1, 2, 3], 3, 3⟩ 9 1).2 = [⟨0, 2⟩] ∧
    (UniformReservoir.update ⟨[1, 2, 3], 3, 3⟩ 9 1).1.res = [1, 9, 3] := by
  refine ⟨le_refl 3, ?_, ?_⟩
  · have h := c6_uniform_update_full ⟨[1, 2, 3], 3, 3⟩ 9 1 (le_refl 3)
    rw [h.1]; decide
  · have h := c6_uniform_update_full ⟨[1, 2, 3], 3, 3⟩ 9 1 (le_refl 3)
    rw [h.2.1]; decide

/-- Claim C8 (claim as stated is wrong about the error kind): register and
query given the empty string reject it, but with InvalidLabel, not
InvalidName — the empty string splits into one empty label, which fails the
label pattern; the InvalidName guard in _split_name is unreachable because
str.split never returns an empty list.  The rejection happens before the
tree is consulted, so the outcome is the same error for every registry. -/
theorem c8_empty_name_error :
    Registry.register [] "" 1 = .error (.invalidLabel []) ∧
    Registry.query [] "" = .error (.invalidLabel []) ∧
    RegErr.invalidLabel [] ≠ RegErr.invalidName "" ∧
    (∀ (data : List (Label × RTree)) (m : ℕ),
      Registry.register data "" m = .error (.invalidLabel []) ∧
      Registry.query data "" = .error (.invalidLabel [])) :=
  ⟨rfl, rfl, by decide, fun _ _ => ⟨rfl, rfl⟩⟩

/-- Counterexample to claim C1 as stated: registering "a.b.c" and then
"a.b" does not raise DuplicateName; the second call returns with the tree
unchanged. -/
theorem c1_counterexample :
    Registry.register [] "a.b.c" 1 =
      .ok [(['a'], RTree.node [(['b'], RTree.node [(['c'], RTree.metric 1)])])] ∧
    Registry.register
        [(['a'], RTree.node [(['b'], RTree.node [(['c'], RTree.metric 1)])])] "a.b" 2 =
      .ok [(['a'], RTree.node [(['b'], RTree.node [(['c'], RTree.metric 1)])])] ∧
    Registry.register
        [(['a'], RTree.node [(['b'], RTree.node [(['c'], RTree.metric 1)])])] "a.b" 2 ≠
      .error (RegErr.duplicateName "a.b") := by
  have h2 : Registry.register
      [(['a'], RTree.node [(['b'], RTree.node [(['c'], RTree.metric 1)])])] "a.b" 2 =
      .ok [(['a'], RTree.node [(['b'], RTree.node [(['c'], RTree.metric 1)])])] := rfl
  refine ⟨rfl, h2, ?_⟩
  rw [h2]
  intro h
  exact Except.noConfusion h

theorem assocSet_self {ν : Type} :
    ∀ (data : List (Label × ν)) (k : Label) (v : ν),
      assocGet data k = some v → assocSet data k v = data := by
  intro data
  induction data with
  | nil => intro k v h; simp [assocGet] at h
  | cons e rest ih =>
    intro k v h
    obtain ⟨k2, v2⟩ := e
    by_cases hk : k2 = k
    · rw [assocGet, if_pos hk] at h
      rw [assocSet, if_pos hk]
      simp only [Option.some_inj] at h
      rw [← h, hk]
    · rw [assocGet, if_neg hk] at h
      rw [assocSet, if_neg hk, ih k v h]

theorem registerAux_nodes (name : String) (m : ℕ) :
    ∀ (labels : List Label) (data : List (Label × RTree)),
      pathOfNodes labels data →
      Registry.registerAux name m labels data = .ok data := by
  intro labels
  induction labels with
  | nil => intro data _; rfl
  | cons label rest ih =>
    intro data hpath
    obtain ⟨children, hget, hrest⟩ := hpath
    rw [Registry.registerAux, hget]
    simp only [ih children hrest]
    exact congrArg Except.ok (assocSet_self data label (RTree.node children) hget)

/-- Claim C1 amended: after register("a.b.c", m1), a later register("a.b", m2)
does not raise DuplicateName; whenever the whole dotted path of the name
resolves to interior nodes, register returns silently and leaves the registry
tree unchanged (the new metric is dropped). -/
theorem c1_amended_register_interior :
    ∀ (name : String) (m : ℕ) (labels : List Label) (data : List (Label × RTree)),
      Registry.splitName name = .ok labels →
      pathOfNodes labels data →
      Registry.register data name m = .ok data := by
  intro name m labels data hsplit hpath
  rw [Registry.register, hsplit]
  exact registerAux_nodes name m labels data hpath

/-- Witness for the amended C1 on the tree registered under "a.b.c". -/
theorem c1_witness :
    Registry.splitName "a.b" = .ok [['a'], ['b']] ∧
    pathOfNodes [['a'], ['b']]
      [(['a'], RTree.node [(['b'], RTree.node [(['c'], RTree.metric 1)])])] ∧
    Registry.register
        [(['a'], RTree.node [(['b'], RTree.node [(['c'], RTree.metric 1)])])] "a.b" 2 =
      .ok [(['a'], RTree.node [(['b'], RTree.node [(['c'], RTree.metric 1)])])] := by
  refine ⟨rfl, ⟨_, rfl, _, rfl, trivial⟩, ?_⟩
  exact c1_amended_register_interior "a.b" 2 [['a'], ['b']]
    [(['a'], RTree.node [(['b'], RTree.node [(['c'], RTree.metric 1)])])]
    rfl ⟨_, rfl, _, rfl, trivial⟩

theorem splitLabels_ne_nil : ∀ cs : List Char, splitLabels cs ≠ [] := by
  intro cs
  induction cs with
  | nil => simp [splitLabels]
  | cons c rest ih =>
    rw [splitLabels]
    by_cases h : c = '.'
    · simp [h]
    · simp only [h, if_false]
      cases hr : splitLabels rest with
      | nil => simp
      | cons l ls => simp

theorem splitLabels_append :
    ∀ xs ys : List Char, splitLabels (xs ++ '.' :: ys) = splitLabels xs ++ splitLabels ys := by
  intro xs ys
  induction xs with
  | nil => simp [splitLabels]
  | cons c rest ih =>
    rw [List.cons_append]
    simp only [splitLabels]
    by_cases h : c = '.'
    · rw [if_pos h, if_pos h, ih]
      rfl
    · rw [if_neg h, if_neg h, ih]
      cases hr : splitLabels rest with
      | nil => exact absurd hr (splitLabels_ne_nil rest)
      | cons l ls => rfl

theorem clsName_splitLabels (t : MetricType) :
    splitLabels t.clsName = [t.clsName] := by
  cases t <;> rfl

theorem clsName_facade (t : MetricType) : isFacadeLabel t.clsName = true := by
  cases t <;> decide

theorem clsName_inj (t1 t2 : MetricType) :
    t1.clsName = t2.clsName → t1 = t2 := by
  cases t1 <;> cases t2 <;> decide

theorem splitRegistryKey_name (name : List Char) (t : MetricType)
    (hname : (splitLabels name).all isFacadeLabel = true) :
    splitRegistryKey (name ++ '.' :: t.clsName) =
      .ok (splitLabels name ++ [t.clsName]) := by
  rw [splitRegistryKey, splitLabels_append, clsName_splitLabels]
  rw [if_pos]
  rw [List.all_append, hname, Bool.true_and]
  simp [clsName_facade]

/-- Counterexample to claim C2 as stated: after requesting a counter under
the name "a", requesting a gauge under the same name "a" does not raise; it
constructs and returns a fresh Gauge, stored under a distinct key, because
the registry key appends the metric class name to the dotted name. -/
theorem c2_counterexample :
    get_or_create_metric ⟨[], 0⟩ .counter ['a'] =
      .ok (⟨.counter, 0⟩, ⟨[([['a'], "Counter".data], ⟨.counter, 0⟩)], 1⟩) ∧
    get_or_create_metric ⟨[([['a'], "Counter".data], ⟨.counter, 0⟩)], 1⟩ .gauge ['a'] =
      .ok (⟨.gauge, 1⟩, ⟨[([['a'], "Counter".data], ⟨.counter, 0⟩),
                         ([['a'], "Gauge".data], ⟨.gauge, 1⟩)], 2⟩) ∧
    (get_or_create_metric ⟨[([['a'], "Counter".data], ⟨.counter, 0⟩)], 1⟩ .gauge ['a']).isOk
      = true :=
  ⟨rfl, rfl, rfl⟩

/-- Claim C2 amended: for a valid dotted name, requesting a metric with one
type and re-requesting the same name with a different type does NOT raise: a
second, distinct metric of the other type is created under its own key (the
key joins the name with the class name); re-requesting with the same type
returns the previously constructed metric and leaves the registry unchanged. -/
theorem c2_amended_facade :
    ∀ (name : List Char) (t1 t2 : MetricType),
      (splitLabels name).all isFacadeLabel = true →
      t1 ≠ t2 →
      get_or_create_metric ⟨[], 0⟩ t1 name =
        .ok (⟨t1, 0⟩, ⟨[(splitLabels name ++ [t1.clsName], ⟨t1, 0⟩)], 1⟩) ∧
      get_or_create_metric ⟨[(splitLabels name ++ [t1.clsName], ⟨t1, 0⟩)], 1⟩ t2 name =
        .ok (⟨t2, 1⟩, ⟨[(splitLabels name ++ [t1.clsName], ⟨t1, 0⟩),
                        (splitLabels name ++ [t2.clsName], ⟨t2, 1⟩)], 2⟩) ∧
      get_or_create_metric ⟨[(splitLabels name ++ [t1.clsName], ⟨t1, 0⟩)], 1⟩ t1 name =
        .ok (⟨t1, 0⟩, ⟨[(splitLabels name ++ [t1.clsName], ⟨t1, 0⟩)], 1⟩) := by
  intro name t1 t2 hname hne
  have hkeys : splitLabels name ++ [t1.clsName] ≠ splitLabels name ++ [t2.clsName] := by
    intro h
    have h2 : [t1.clsName] = [t2.clsName] := List.append_cancel_left h
    simp only [List.cons.injEq, and_true] at h2
    exact hne (clsName_inj t1 t2 h2)
  refine ⟨?_, ?_, ?_⟩
  · rw [get_or_create_metric, splitRegistryKey_name name t1 hname]
    rfl
  · rw [get_or_create_metric, splitRegistryKey_name name t2 hname]
    simp only [fAssocGet, if_neg hkeys]
    rfl
  · rw [get_or_create_metric, splitRegistryKey_name name t1 hname]
    simp [fAssocGet]

/-- Witness for the amended C2 at name "a" with counter and gauge. -/
theorem c2_witness :
    (splitLabels ['a']).all isFacadeLabel = true ∧
    MetricType.counter ≠ MetricType.gauge ∧
    get_or_create_metric
        ⟨[(splitLabels ['a'] ++ [MetricType.counter.clsName], ⟨.counter, 0⟩)], 1⟩
        .gauge ['a'] =
      .ok (⟨.gauge, 1⟩,
        ⟨[(splitLabels ['a'] ++ [MetricType.counter.clsName], ⟨.counter, 0⟩),
          (splitLabels ['a'] ++ [MetricType.gauge.clsName], ⟨.gauge, 1⟩)], 2⟩) :=
  ⟨by decide, by decide,
    (c2_amended_facade ['a'] .counter .gauge (by decide) (by decide)).2.1⟩

theorem sorted_min_mem (l : List ℚ) (h : l ≠ []) :
    (l.insertionSort (· ≤ ·)).getD 0 0 ∈ l ∧
    ∀ x ∈ l, (l.insertionSort (· ≤ ·)).getD 0 0 ≤ x := by
  have hperm := List.perm_insertionSort (· ≤ ·) l
  have hsort := List.sorted_insertionSort (· ≤ ·) l
  cases hsl : l.insertionSort (· ≤ ·) with
  | nil =>
    have hzero : l.length = 0 := by
      rw [← hperm.length_eq, hsl]
      rfl
    exact absurd (List.length_eq_zero.mp hzero) h
  | cons a t =>
    rw [hsl] at hperm hsort
    have hmem : a ∈ l := hperm.mem_iff.mp (List.mem_cons_self a t)
    have hbound := (List.sorted_cons.mp hsort).1
    refine ⟨by simpa using hmem, ?_⟩
    intro x hx
    have hx2 : x ∈ a :: t := hperm.mem_iff.mpr hx
    rcases List.mem_cons.mp hx2 with hxa | hxt
    · simp [hxa]
    · simpa using hbound x hxt

theorem sorted_max_mem (l : List ℚ) (h : l ≠ []) :
    (l.insertionSort (· ≤ ·)).getD ((l.insertionSort (· ≤ ·)).length - 1) 0 ∈ l ∧
    ∀ x ∈ l, x ≤ (l.insertionSort (· ≤ ·)).getD ((l.insertionSort (· ≤ ·)).length - 1) 0 := by
  have hperm := List.perm_insertionSort (· ≤ ·) l
  have hsort := List.sorted_insertionSort (· ≤ ·) l
  have hlen : 0 < (l.insertionSort (· ≤ ·)).length := by
    rw [hperm.length_eq]
    exact List.length_pos.mpr h
  have hlt : (l.insertionSort (· ≤ ·)).length - 1 < (l.insertionSort (· ≤ ·)).length := by
    omega
  rw [List.getD_eq_get _ _ hlt]
  constructor
  · exact hperm.mem_iff.mp (List.get_mem _ _ _)
  · intro x hx
    obtain ⟨i, hi⟩ := List.mem_iff_get.mp (hperm.mem_iff.mpr hx)
    rw [← hi]
    refine hsort.rel_get_of_le ?_
    rw [Fin.le_def]
    show i.val ≤ (l.insertionSort (· ≤ ·)).length - 1
    have hi2 := i.isLt
    omega

/-- Claim C4: Snapshot.get_value computes pos = q(n+1) over the sorted values
and returns 0 when empty, the minimum of the inserted values when the integer
part of pos is 0, the maximum when it is at least n, and the linear
interpolation between the two neighbouring sorted values otherwise; a
quantile outside [0, 1] yields the invalid-quantile error, and the snapshot
stays usable afterwards; on [1..5], get_value(0.42) = 2.52 and
get_value(0.75) = 4.5. -/
theorem c4_snapshot_get_value :
    (∀ (l : List ℚ) (q : ℚ) (s : Snapshot) (n : ℕ) (pos : ℚ) (index : ℤ),
      s = Snapshot.ofList l → n = s.vals.length → pos = q * ((n : ℚ) + 1) →
      index = ⌊pos⌋ →
      (List.Sorted (· ≤ ·) s.vals ∧ n = l.length) ∧
      (¬ (0 ≤ q ∧ q ≤ 1) → s.getValue q = .error .invalidQuantile) ∧
      (0 ≤ q → q ≤ 1 →
        (n = 0 → s.getValue q = .ok 0) ∧
        (n ≠ 0 → index = 0 →
          ∃ m, m ∈ l ∧ (∀ x ∈ l, m ≤ x) ∧ s.getValue q = .ok m) ∧
        (n ≠ 0 → (n : ℤ) ≤ index →
          ∃ m, m ∈ l ∧ (∀ x ∈ l, x ≤ m) ∧ s.getValue q = .ok m) ∧
        (0 < index → index < (n : ℤ) →
          s.getValue q = .ok (s.vals.getD (index.toNat - 1) 0 +
            (pos - (index : ℚ)) *
              (s.vals.getD index.toNat 0 - s.vals.getD (index.toNat - 1) 0))))) ∧
    (Snapshot.ofList [5, 1, 2, 3, 4]).getValue 1.1 = .error .invalidQuantile ∧
    (Snapshot.ofList [5, 1, 2, 3, 4]).getValue 0.42 = .ok 2.52 ∧
    (Snapshot.ofList [5, 1, 2, 3, 4]).getValue 0.75 = .ok 4.5 := by
  refine ⟨?_, ?_, ?_, ?_⟩
  · intro l q s n pos index hs hn hpos hidx
    subst hs; subst hn; subst hpos; subst hidx
    have hlen : (Snapshot.ofList l).vals.length = l.length :=
      (List.perm_insertionSort (· ≤ ·) l).length_eq
    refine ⟨⟨List.sorted_insertionSort (· ≤ ·) l, hlen⟩, ?_, ?_⟩
    · intro hq
      simp only [Snapshot.getValue]
      rw [if_pos hq]
    · intro h0 h1
      have hval : ¬ ¬ (0 ≤ q ∧ q ≤ 1) := not_not_intro ⟨h0, h1⟩
      refine ⟨?_, ?_, ?_, ?_⟩
      · intro hzero
        simp only [Snapshot.getValue]
        rw [if_neg hval, if_pos hzero]
      · intro hne hidx0
        have hlne : l ≠ [] := by
          intro hl
          apply hne
          rw [hlen, hl]
          rfl
        obtain ⟨hmem, hmin⟩ := sorted_min_mem l hlne
        refine ⟨(Snapshot.ofList l).vals.getD 0 0, hmem, hmin, ?_⟩
        simp only [Snapshot.getValue]
        rw [if_neg hval, if_neg hne, if_pos hidx0]
      · intro hne hge
        have hlne : l ≠ [] := by
          intro hl
          apply hne
          rw [hlen, hl]
          rfl
        obtain ⟨hmem, hmax⟩ := sorted_max_mem l hlne
        refine ⟨(Snapshot.ofList l).vals.getD ((Snapshot.ofList l).vals.length - 1) 0,
          hmem, hmax, ?_⟩
        simp only [Snapshot.getValue]
        have hidxne : ⌊q * (((Snapshot.ofList l).vals.length : ℚ) + 1)⌋ ≠ 0 := by
          intro hz
          rw [hz] at hge
          omega
        rw [if_neg hval, if_neg hne, if_neg hidxne, if_pos hge]
      · intro hgt hlt
        simp only [Snapshot.getValue]
        have hne : ¬ (Snapshot.ofList l).vals.length = 0 := by omega
        have hidxne : ⌊q * (((Snapshot.ofList l).vals.length : ℚ) + 1)⌋ ≠ 0 := by omega
        have hnotge : ¬ ((Snapshot.ofList l).vals.length : ℤ) ≤
            ⌊q * (((Snapshot.ofList l).vals.length : ℚ) + 1)⌋ := by omega
        rw [if_neg hval, if_neg hne, if_neg hidxne, if_neg hnotge]
  · norm_num [Snapshot.ofList, Snapshot.getValue]
  · norm_num [Snapshot.ofList, Snapshot.getValue, Int.toNat, List.getD]
  · norm_num [Snapshot.ofList, Snapshot.getValue, Int.toNat, List.getD]

/-- Witness for C4 at the quantile 0 on the values [5,1,2,3,4]: the minimum
branch fires and returns 1. -/
theorem c4_witness :
    (0 : ℚ) ≤ 0 ∧ (0 : ℚ) ≤ 1 ∧ (Snapshot.ofList [5, 1, 2, 3, 4]).vals.length ≠ 0 ∧
    (∃ m, m ∈ ([5, 1, 2, 3, 4] : List ℚ) ∧ (∀ x ∈ ([5, 1, 2, 3, 4] : List ℚ), m ≤ x) ∧
      (Snapshot.ofList [5, 1, 2, 3, 4]).getValue 0 = .ok m) := by
  refine ⟨le_refl 0, by decide, by decide, ?_⟩
  have h := (c4_snapshot_get_value.1 [5, 1, 2, 3, 4] 0 _ _ _ _ rfl rfl rfl rfl).2.2
    (le_refl 0) (by decide)
  exact h.2.1 (by decide) (by simp)

theorem ws_ofList_vals (l : List (ℚ × ℚ)) :
    (WeightedSnapshot.ofList l).vals = (l.insertionSort pairLe).map Prod.fst := rfl

theorem ws_ofList_normweights (l : List (ℚ × ℚ)) :
    (WeightedSnapshot.ofList l).normweights =
      ((l.insertionSort pairLe).map Prod.snd).map
        (fun w => w / ((l.insertionSort pairLe).map Prod.snd).sum) := rfl

theorem ws_ofList_quantiles (l : List (ℚ × ℚ)) :
    (WeightedSnapshot.ofList l).quantiles =
      (List.range (WeightedSnapshot.ofList l).vals.length).map
        (fun i => ((WeightedSnapshot.ofList l).normweights.take i).sum) := rfl

theorem get?_eq_some_getD (xs : List ℚ) (i : ℕ) (h : i < xs.length) :
    xs.get? i = some (xs.getD i 0) := by
  rw [List.get?_eq_get h, List.getD_eq_getElem xs 0 h, List.get_eq_getElem]

/-- Claim C3: a WeightedSnapshot built from a non-empty list stores as
cutoffs the exclusive prefix sums of the normalized weights (the cutoff at 0
being 0), and get_value on a quantile q in [0, 1] takes the smallest index p
whose cutoff exceeds q (p = n when none does) and returns values[0] when
p is at most 1 and values[p - 1] otherwise; over the example pairs,
get_value(0.75) = 4 and get_value(1.0) = 5. -/
theorem c3_weighted_get_value :
    (∀ (l : List (ℚ × ℚ)) (q : ℚ) (ws : WeightedSnapshot) (p : ℕ),
      l ≠ [] → ws = WeightedSnapshot.ofList l → p = findPos ws.quantiles q →
      (ws.vals.length = l.length ∧ ws.normweights.length = l.length ∧
        ws.quantiles.length = l.length) ∧
      (∀ i, i < l.length → ws.quantiles.get? i = some ((ws.normweights.take i).sum)) ∧
      ws.quantiles.get? 0 = some 0 ∧
      (0 ≤ q → q ≤ 1 →
        p ≤ l.length ∧
        (∀ i, i < p → ∀ x, ws.quantiles.get? i = some x → x ≤ q) ∧
        (p < l.length → ∀ x, ws.quantiles.get? p = some x → q < x) ∧
        (p ≤ 1 → ws.getValue q = .ok (ws.vals.getD 0 0)) ∧
        (1 < p → ws.getValue q = .ok (ws.vals.getD (p - 1) 0)))) ∧
    (WeightedSnapshot.ofList [(5, 1), (1, 2), (2, 3), (3, 2), (4, 2)]).getValue 0.75
      = .ok 4 ∧
    (WeightedSnapshot.ofList [(5, 1), (1, 2), (2, 3), (3, 2), (4, 2)]).getValue 1
      = .ok 5 := by
  refine ⟨?_, ?_, ?_⟩
  · intro l q ws p hne hws hp
    subst hws; subst hp
    have hsp : (l.insertionSort pairLe).length = l.length :=
      (List.perm_insertionSort pairLe l).length_eq
    have hv : (WeightedSnapshot.ofList l).vals.length = l.length := by
      rw [ws_ofList_vals, List.length_map, hsp]
    have hw : (WeightedSnapshot.ofList l).normweights.length = l.length := by
      rw [ws_ofList_normweights, List.length_map, List.length_map, hsp]
    have hq : (WeightedSnapshot.ofList l).quantiles.length = l.length := by
      rw [ws_ofList_quantiles, List.length_map, List.length_range, hv]
    have hget : ∀ i, i < l.length →
        (WeightedSnapshot.ofList l).quantiles.get? i =
          some (((WeightedSnapshot.ofList l).normweights.take i).sum) := by
      intro i hi
      rw [ws_ofList_quantiles, List.get?_map, List.get?_range (by rw [hv]; exact hi)]
      rfl
    refine ⟨⟨hv, hw, hq⟩, hget, ?_, ?_⟩
    · have h0 := hget 0 (List.length_pos.mpr hne)
      simpa using h0
    · intro hq0 hq1
      have hval : ¬ ¬ (0 ≤ q ∧ q ≤ 1) := not_not_intro ⟨hq0, hq1⟩
      have hple : findPos (WeightedSnapshot.ofList l).quantiles q ≤ l.length := by
        rw [← hq]
        exact findPos_le_length _ q
      refine ⟨hple, ?_, ?_, ?_, ?_⟩
      · intro i hi x hx
        exact findPos_early _ q i hi x hx
      · intro hlt x hx
        exact findPos_hit _ q (by rw [hq]; exact hlt) x hx
      · intro hp1
        simp only [WeightedSnapshot.getValue]
        rw [if_neg hval, if_pos hp1,
          get?_eq_some_getD _ 0 (by rw [hv]; exact List.length_pos.mpr hne)]
      · intro hp1
        simp only [WeightedSnapshot.getValue]
        have hlt : findPos (WeightedSnapshot.ofList l).quantiles q - 1 <
            (WeightedSnapshot.ofList l).vals.length := by
          rw [hv]
          have := List.length_pos.mpr hne
          omega
        rw [if_neg hval, if_neg (not_le.mpr hp1), get?_eq_some_getD _ _ hlt]
  · norm_num [WeightedSnapshot.ofList, WeightedSnapshot.getValue, List.insertionSort,
      List.orderedInsert, pairLe, List.range_succ, findPos]
  · norm_num [WeightedSnapshot.ofList, WeightedSnapshot.getValue, List.insertionSort,
      List.orderedInsert, pairLe, List.range_succ, findPos]

/-- Witness for C3 on the single pair (7, 1) at quantile 1. -/
theorem c3_witness :
    ([((7 : ℚ), (1 : ℚ))] ≠ ([] : List (ℚ × ℚ))) ∧
    (0 : ℚ) ≤ 1 ∧ (1 : ℚ) ≤ 1 ∧
    findPos (WeightedSnapshot.ofList [(7, 1)]).quantiles 1 ≤ 1 ∧
    (WeightedSnapshot.ofList [(7, 1)]).getValue 1 =
      .ok ((WeightedSnapshot.ofList [(7, 1)]).vals.getD 0 0) := by
  refine ⟨by decide, by decide, by decide, by decide, ?_⟩
  have h := (c3_weighted_get_value.1 [(7, 1)] 1 _ _ (by decide) rfl rfl).2.2.2
    (by decide) (by decide)
  exact h.2.2.2.1 (by decide)

theorem any_key_iff_mem (res : List (ℚ × ℚ × ℚ)) (k : ℚ) :
    (res.any fun e => decide (e.1 = k)) = true ↔ k ∈ res.map (fun e => e.1) := by
  simp only [List.any_eq_true, List.mem_map, decide_eq_true_eq]

theorem dictInsert_fresh (res : List (ℚ × ℚ × ℚ)) (k v w : ℚ)
    (h : (res.any fun e => decide (e.1 = k)) = false) :
    dictInsert res k v w = res ++ [(k, v, w)] := by
  rw [dictInsert, if_neg]
  simp [h]

theorem filter_ne_of_not_mem (res : List (ℚ × ℚ × ℚ)) (k : ℚ)
    (h : k ∉ res.map (fun e => e.1)) :
    res.filter (fun e => !(decide (e.1 = k))) = res := by
  induction res with
  | nil => rfl
  | cons e rest ih =>
    simp only [List.map_cons, List.mem_cons, not_or] at h
    have he : (decide (e.1 = k)) = false := by
      simp only [decide_eq_false_iff_not]
      intro hh
      exact h.1 hh.symm
    simp only [List.filter_cons, he, Bool.not_false, if_pos]
    rw [ih h.2]

theorem filter_ne_length (res : List (ℚ × ℚ × ℚ)) (k : ℚ)
    (hnd : (res.map (fun e => e.1)).Nodup) (hk : k ∈ res.map (fun e => e.1)) :
    (res.filter (fun e => !(decide (e.1 = k)))).length + 1 = res.length := by
  induction res with
  | nil => simp at hk
  | cons e rest ih =>
    rw [List.map_cons, List.nodup_cons] at hnd
    rw [List.map_cons] at hk
    rcases List.mem_cons.mp hk with hke | hkr
    · subst hke
      rw [List.filter_cons, if_neg (by simp)]
      rw [filter_ne_of_not_mem rest e.1 hnd.1]
      rfl
    · have hek : e.1 ≠ k := fun hh => hnd.1 (hh ▸ hkr)
      rw [List.filter_cons, if_pos (by simp [hek]), List.length_cons, List.length_cons]
      have := ih hnd.2 hkr
      omega

theorem sortedHead_eq_min (keys : List ℚ) (pmin first : ℚ) (rest : List ℚ)
    (hmem : pmin ∈ keys) (hlb : ∀ k ∈ keys, pmin ≤ k)
    (hsort : keys.insertionSort (· ≤ ·) = first :: rest) : first = pmin := by
  have hperm := List.perm_insertionSort (· ≤ ·) keys
  have hsorted := List.sorted_insertionSort (· ≤ ·) keys
  rw [hsort] at hperm hsorted
  have hfmem : first ∈ keys := hperm.mem_iff.mp (List.mem_cons_self first rest)
  have hpmem : pmin ∈ first :: rest := hperm.mem_iff.mpr hmem
  rcases List.mem_cons.mp hpmem with hpf | hpr
  · exact hpf.symm
  · exact le_antisymm ((List.sorted_cons.mp hsorted).1 pmin hpr) (hlb first hfmem)

/-- Claim C5: with the exponentially-decaying reservoir full (count at least
its size k), an update with a fresh priority exceeding the stored minimum
inserts the (value, weight) sample under that priority and evicts the
minimum-priority entry; an update whose priority equals an existing key
inserts nothing; in every case count grows by exactly 1 and the number of
stored entries stays at most k. -/
theorem c5_edr_update_full :
    ∀ (st : ExponentiallyDecayingReservoir) (v w p pmin : ℚ),
      st.size ≤ st.count →
      st.res ≠ [] →
      (st.res.map (fun e => e.1)).Nodup →
      pmin ∈ st.res.map (fun e => e.1) →
      (∀ k ∈ st.res.map (fun e => e.1), pmin ≤ k) →
      ∃ st2, ExponentiallyDecayingReservoir.update st v w p = some st2 ∧
        st2.count = st.count + 1 ∧
        st2.size = st.size ∧
        (p ∈ st.res.map (fun e => e.1) → st2.res = st.res) ∧
        (¬ pmin < p → st2.res = st.res) ∧
        (pmin < p → p ∉ st.res.map (fun e => e.1) →
          st2.res = st.res.filter (fun e => !(decide (e.1 = pmin))) ++ [(p, v, w)] ∧
          st2.res.length = st.res.length) ∧
        (st.res.length ≤ st.size → st2.res.length ≤ st.size) := by
  intro st v w p pmin hfull hne hnd hmem hlb
  have hnotlt : ¬ st.count < st.size := not_lt.mpr hfull
  have hklen : (st.res.map (fun e => e.1)).length ≠ 0 := by
    simp only [List.length_map, ne_eq, List.length_eq_zero]
    exact hne
  cases hsort : (st.res.map (fun e => e.1)).insertionSort (· ≤ ·) with
  | nil =>
    exfalso
    apply hklen
    rw [← (List.perm_insertionSort (· ≤ ·) (st.res.map (fun e => e.1))).length_eq, hsort]
    rfl
  | cons first rest =>
    have hfirst : first = pmin :=
      sortedHead_eq_min (st.res.map (fun e => e.1)) pmin first rest hmem hlb hsort
    subst hfirst
    have heq : ExponentiallyDecayingReservoir.update st v w p =
        some { res := if first < p ∧ (st.res.any fun e => decide (e.1 = p)) = false
                      then dictRemove (dictInsert st.res p v w) first else st.res,
               count := st.count + 1, size := st.size } := by
      rw [ExponentiallyDecayingReservoir.update, if_neg hnotlt, hsort]
    by_cases hcond : first < p ∧ (st.res.any fun e => decide (e.1 = p)) = false
    · have hnotmem : p ∉ st.res.map (fun e => e.1) := by
        intro hp
        rw [(any_key_iff_mem st.res p).mpr hp] at hcond
        exact Bool.true_eq_false.mp hcond.2
      have hres2 : dictRemove (dictInsert st.res p v w) first =
          st.res.filter (fun e => !(decide (e.1 = first))) ++ [(p, v, w)] := by
        rw [dictInsert_fresh st.res p v w hcond.2, dictRemove, List.filter_append]
        have hpe : (decide ((p, v, w).1 = first)) = false := by
          simp only [decide_eq_false_iff_not]
          intro hh
          exact absurd (hh ▸ hcond.1) (lt_irrefl p)
        simp [hpe]
      have hlen2 : (st.res.filter (fun e => !(decide (e.1 = first))) ++
          [(p, v, w)]).length = st.res.length := by
        rw [List.length_append]
        have := filter_ne_length st.res first hnd hmem
        simp only [List.length_cons, List.length_nil]
        omega
      rw [if_pos hcond] at heq
      refine ⟨_, heq, rfl, rfl, ?_, ?_, ?_, ?_⟩
      · intro hp
        exact absurd hp hnotmem
      · intro hnp
        exact absurd hcond.1 hnp
      · intro _ _
        exact ⟨hres2, by rw [hres2]; exact hlen2⟩
      · intro hsz
        rw [hres2, hlen2]
        exact hsz
    · rw [if_neg hcond] at heq
      refine ⟨_, heq, rfl, rfl, fun _ => rfl, fun _ => rfl, ?_, fun h => h⟩
      intro hp hnotmem
      exfalso
      apply hcond
      refine ⟨hp, ?_⟩
      rw [← Bool.not_eq_true]
      intro hany
      exact hnotmem ((any_key_iff_mem st.res p).mp hany)

/-- Witness for C5 on a full reservoir of size 3 with fresh priority 5
beating the minimum 1. -/
theorem c5_witness :
    (3 : ℕ) ≤ 3 ∧
    ([((3 : ℚ), (10 : ℚ), (1 : ℚ)), (1, 20, 1), (2, 30, 1)] ≠
      ([] : List (ℚ × ℚ × ℚ))) ∧
    ∃ st2, ExponentiallyDecayingReservoir.update ⟨[(3, 10, 1), (1, 20, 1), (2, 30, 1)], 3, 3⟩
        7 2 5 = some st2 ∧
      st2.count = 4 ∧ st2.res = [(3, 10, 1), (2, 30, 1), (5, 7, 2)] := by
  refine ⟨le_refl 3, by decide, ?_⟩
  obtain ⟨st2, hup, hcount, hsize, hmem, hnlt, hins, hsz⟩ :=
    c5_edr_update_full ⟨[(3, 10, 1), (1, 20, 1), (2, 30, 1)], 3, 3⟩ 7 2 5 1
      (le_refl 3) (by decide) (by decide) (by decide) (by decide)
  refine ⟨st2, hup, hcount, ?_⟩
  rw [(hins (by decide) (by decide)).1]
  decide
